import Mathlib

/-!
Verification of the zyphyr in-process vector similarity store.

Modelling conventions (shallow embedding of the Rust sources):

* `f32` is modelled as `ℚ` with exact arithmetic; `f32::sqrt` is modelled by
  `sqrtQ`, a rational square-root approximation that is exact on perfect
  squares and, like the floating-point square root, maps `0` to `0` and
  positive inputs to positive outputs.  The claims settled here depend on the
  square root only at exactly-representable points.
* Rust `Result` becomes `Except`, `Option` stays `Option`; a documented Rust
  panic is modelled as `none`.
* `HashMap<String, usize>` is modelled as an association list
  `List (String × ℕ)` with the usual insert-replaces / remove-deletes
  semantics of a hash map.
* Mutating methods `fn f(&mut self, …) -> R` become pure functions returning
  the updated value together with `R`.
-/

namespace Zyphyr

/-- Model of `f32::sqrt` on nonnegative rationals: the floor square roots of
numerator and denominator.  Exact on perfect squares (`0`, `1`, `25`, …);
maps `0` to `0` and positive rationals to positive rationals, which is all
the verified claims use. -/
def sqrtQ (q : ℚ) : ℚ := (Nat.sqrt q.num.toNat : ℚ) / (Nat.sqrt q.den : ℚ)

/-- Sum of squares of a list of rationals (`Σ x_i·x_i`). -/
def sumsq (l : List ℚ) : ℚ := (l.map (fun x => x * x)).sum

/-- Dot product `Σ a_i·b_i`, truncating to the shorter list exactly as the
Rust `iter().zip()` does. -/
def dotp (a b : List ℚ) : ℚ := ((a.zip b).map (fun p => p.1 * p.2)).sum

/-- Error type used by the sources.  The repository holds two snapshots of the
error enum surface: `error.rs` declares `DimensionMismatch` and `EmptyVector`,
while `collection.rs` and `vector_aligned.rs` construct `InvalidDimension` and
`Other`.  The spec (§7) treats these as error *kinds*; we include every
constructor the source files use. -/
inductive ZyphyrError where
  | invalidDimension (expected got : ℕ)
  | dimensionMismatch (expected actual : ℕ)
  | emptyVector
  | alignmentError (msg : String)
  | other (msg : String)
  deriving DecidableEq, Repr

/-- The three distance metric tags of `distance.rs`. -/
inductive DistanceMetric where
  | euclidean
  | cosine
  | dotProduct
  deriving DecidableEq, Repr

/-- `euclidean_distance` of `distance.rs`: `sqrt(Σ (a_i - b_i)^2)`. -/
def euclidean_distance (a b : List ℚ) : ℚ :=
  sqrtQ (((a.zip b).map (fun p => (p.1 - p.2) * (p.1 - p.2))).sum)

/-- `cosine_distance` of `distance.rs`: `1 - dot/(‖a‖·‖b‖)`, returning `1.0`
when either norm is zero. -/
def cosine_distance (a b : List ℚ) : ℚ :=
  let dot_product := dotp a b
  let norm_a := sqrtQ (sumsq a)
  let norm_b := sqrtQ (sumsq b)
  if norm_a = 0 ∨ norm_b = 0 then 1
  else 1 - dot_product / (norm_a * norm_b)

/-- `dot_product_distance` of `distance.rs`: the *negated* dot product. -/
def dot_product_distance (a b : List ℚ) : ℚ := -(dotp a b)

/-- `DistanceMetric::calculate` of `distance.rs`: length check, empty check,
then dispatch to the three helper functions. -/
def DistanceMetric.calculate (m : DistanceMetric) (a b : List ℚ) :
    Except ZyphyrError ℚ :=
  if a.length ≠ b.length then .error (.dimensionMismatch a.length b.length)
  else if a.isEmpty then .error .emptyVector
  else
    match m with
    | .euclidean => .ok (euclidean_distance a b)
    | .cosine => .ok (cosine_distance a b)
    | .dotProduct => .ok (dot_product_distance a b)

/-- Definition following the spec's words for the DotProduct metric (§4.2):
"the raw dot product `Σ a_i·b_i` of the logical regions, returned without
negation".  Stated separately so it can be compared with the implementation
in `distance.rs`. -/
def specRawDotProduct (a b : List ℚ) : ℚ := ((a.zip b).map (fun p => p.1 * p.2)).sum

/-- Modelled from the spec: `pad_dimension`/`get_simd_width` are referenced by
`vector_aligned.rs` but their definitions are not under `src/`.  Per the spec
(§3, glossary) the padded dimension is the logical dimension rounded up to the
next multiple of the detected SIMD width; the width itself is passed in as a
parameter, following the spec's recommendation (§9) of an injected width. -/
def pad_dimension (dim simd_width : ℕ) : ℕ :=
  ((dim + simd_width - 1) / simd_width) * simd_width

/-- Model of `Vec::resize(n, x)` / `AlignedVec::resize`: truncate or extend
with `x` to length `n`. -/
def listResize (l : List ℚ) (n : ℕ) (x : ℚ) : List ℚ :=
  l.take n ++ List.replicate (n - l.length) x

/-- The `Vector` of `vector_aligned.rs`: identifier, padded buffer, logical
dimension, padded dimension, normalization flag. -/
structure Vector where
  id : String
  data : List ℚ
  dim : ℕ
  padded_dim : ℕ
  is_normalized : Bool
  deriving DecidableEq, Repr

/-- The logical region of the buffer: slots `[0, dim)` (`Vector::data()`). -/
def Vector.logical (v : Vector) : List ℚ := v.data.take v.dim

/-- `Vector::new` of `vector_aligned.rs`: reject empty input, pad the buffer
with zeros to the padded dimension.  `simd_width` is the injected platform
SIMD width (see `pad_dimension`). -/
def Vector.new (simd_width : ℕ) (id : String) (data : List ℚ) :
    Except ZyphyrError Vector :=
  if data.length = 0 then .error (.invalidDimension 1 0)
  else
    let dim := data.length
    let padded_dim := pad_dimension dim simd_width
    .ok { id := id
          data := listResize data padded_dim 0
          dim := dim
          padded_dim := padded_dim
          is_normalized := false }

/-- `Vector::normalize` of `vector_aligned.rs`: no-op when the flag is set;
otherwise compute the magnitude over the logical region only, divide each
logical slot by it when it is positive (padding untouched), and set the flag
unconditionally. -/
def Vector.normalize (v : Vector) : Vector :=
  if v.is_normalized then v
  else
    let magnitude := sqrtQ (sumsq (v.data.take v.dim))
    if 0 < magnitude then
      { v with
        data := (v.data.take v.dim).map (fun x => x / magnitude) ++ v.data.drop v.dim
        is_normalized := true }
    else { v with is_normalized := true }

/-- Model of the `HashMap<String, usize>` lookup used by `collection.rs`,
as an association list scanned front to back. -/
def hmLookup : List (String × ℕ) → String → Option ℕ
  | [], _ => none
  | p :: ps, k => if p.1 = k then some p.2 else hmLookup ps k

/-- Model of `HashMap::remove` (a hash map holds at most one entry per key;
removing deletes every entry for the key). -/
def hmRemove : List (String × ℕ) → String → List (String × ℕ)
  | [], _ => []
  | p :: ps, k => if p.1 = k then hmRemove ps k else p :: hmRemove ps k

/-- Model of `HashMap::insert`: the new binding replaces any previous entry
for the key. -/
def hmInsert (m : List (String × ℕ)) (k : String) (n : ℕ) : List (String × ℕ) :=
  (k, n) :: hmRemove m k

/-- A hash map cannot hold two entries for one key: the model's key list is
duplicate-free. -/
def KeysNodup (m : List (String × ℕ)) : Prop := (m.map Prod.fst).Nodup

/-- The `VectorCollection` of `collection.rs`: backing sequence, id→slot map,
optional fixed dimension. -/
structure VectorCollection where
  vectors : List Vector
  id_to_index : List (String × ℕ)
  dimensions : Option ℕ
  deriving DecidableEq, Repr

/-- `VectorCollection::new`. -/
def VectorCollection.new : VectorCollection := ⟨[], [], none⟩

/-- `VectorCollection::with_capacity`: pre-reserving storage is unobservable
in the model. -/
def VectorCollection.with_capacity (_capacity : ℕ) : VectorCollection :=
  ⟨[], [], none⟩

/-- `VectorCollection::len`. -/
def VectorCollection.len (c : VectorCollection) : ℕ := c.vectors.length

/-- `VectorCollection::is_empty`. -/
def VectorCollection.is_empty (c : VectorCollection) : Bool := c.vectors.isEmpty

/-- `VectorCollection::contains`. -/
def VectorCollection.contains (c : VectorCollection) (id : String) : Bool :=
  (hmLookup c.id_to_index id).isSome

/-- `VectorCollection::get`: map lookup then index into the backing sequence
(the Rust code indexes unconditionally; in every well-formed collection the
slot is in range, so the optional index agrees). -/
def VectorCollection.get (c : VectorCollection) (id : String) : Option Vector :=
  (hmLookup c.id_to_index id).bind (fun index => c.vectors[index]?)

/-- Shared tail of `VectorCollection::insert`: duplicate-identifier check,
then record the new slot and push the vector. -/
def VectorCollection.insertTail (c : VectorCollection) (v : Vector) :
    VectorCollection × Except ZyphyrError Unit :=
  if (hmLookup c.id_to_index v.id).isSome then
    (c, .error (.other ("Duplicate ID: " ++ v.id)))
  else
    ({ c with
        vectors := c.vectors ++ [v]
        id_to_index := hmInsert c.id_to_index v.id c.vectors.length },
      .ok ())

/-- `VectorCollection::insert` of `collection.rs`.  When a dimension is fixed
a mismatching vector is rejected before the duplicate check; when none is
fixed, both branches of the source's `else` set the dimension, modelled as
one. -/
def VectorCollection.insert (c : VectorCollection) (v : Vector) :
    VectorCollection × Except ZyphyrError Unit :=
  match c.dimensions with
  | some dims =>
    if v.dim ≠ dims then (c, .error (.invalidDimension dims v.dim))
    else c.insertTail v
  | none => VectorCollection.insertTail { c with dimensions := some v.dim } v

/-- `VectorCollection::batch_insert`: insert in order, stop at the first
failure (capacity reservation is unobservable). -/
def VectorCollection.batch_insert :
    VectorCollection → List Vector → VectorCollection × Except ZyphyrError Unit
  | c, [] => (c, .ok ())
  | c, v :: vs =>
    match VectorCollection.insert c v with
    | (c', .ok _) => VectorCollection.batch_insert c' vs
    | (c', .error e) => (c', .error e)

/-- Model of `slice::swap` (in every reachable call both indices are in
range). -/
def listSwap (l : List Vector) (i j : ℕ) : List Vector :=
  match l[i]?, l[j]? with
  | some a, some b => (l.set i b).set j a
  | _, _ => l

/-- `VectorCollection::remove` of `collection.rs`: drop the map entry, swap
the target with the last element when it is not already last (patching the
map entry of the moved vector), then pop. -/
def VectorCollection.remove (c : VectorCollection) (id : String) :
    VectorCollection × Option Vector :=
  match hmLookup c.id_to_index id with
  | none => (c, none)
  | some index =>
    let m1 := hmRemove c.id_to_index id
    if index < c.vectors.length - 1 then
      let vs := listSwap c.vectors index (c.vectors.length - 1)
      let swapped_id := ((vs[index]?).map Vector.id).getD ""
      ({ vectors := vs.dropLast
         id_to_index := hmInsert m1 swapped_id index
         dimensions := c.dimensions },
        vs.getLast?)
    else
      ({ vectors := c.vectors.dropLast
         id_to_index := m1
         dimensions := c.dimensions },
        c.vectors.getLast?)

/-- Chunking helper; the fuel is instantiated with the list length, which
suffices because each step with a positive size strictly shrinks the list. -/
def chunksAux (size : ℕ) : ℕ → List Vector → List (List Vector)
  | _, [] => []
  | 0, _ :: _ => []
  | fuel + 1, x :: t => (x :: t).take size :: chunksAux size fuel ((x :: t).drop size)

/-- `VectorCollection::chunks`.  Rust's `slice::chunks` has a documented
panic on `chunk_size == 0`, modelled as `none`. -/
def VectorCollection.chunks (c : VectorCollection) (chunk_size : ℕ) :
    Option (List (List Vector)) :=
  if chunk_size = 0 then none
  else some (chunksAux chunk_size c.vectors.length c.vectors)

/-- A 1-dimensional vector with identifier "a" (as constructed with SIMD
width 4). -/
def cexV1 : Vector := ⟨"a", [1, 0, 0, 0], 1, 4, false⟩

/-- A 2-dimensional vector with identifier "b". -/
def cexV2 : Vector := ⟨"b", [1, 1, 0, 0], 2, 4, false⟩

/-- A 2-dimensional vector reusing identifier "a". -/
def cexV1dup2 : Vector := ⟨"a", [1, 1, 0, 0], 2, 4, false⟩

/-- A second 1-dimensional vector with identifier "b". -/
def cexV3 : Vector := ⟨"b", [2, 0, 0, 0], 1, 4, false⟩

/-- Exact consistency of the id→slot map with the backing sequence: every map
entry points at an in-range slot holding a vector with that id, every stored
vector's id looks up to its slot, and the map has no duplicate keys. -/
def MapConsistent (c : VectorCollection) : Prop :=
  (∀ p ∈ c.id_to_index, ∃ u, c.vectors[p.2]? = some u ∧ u.id = p.1)
    ∧ (∀ i u, c.vectors[i]? = some u → hmLookup c.id_to_index u.id = some i)
    ∧ KeysNodup c.id_to_index

/-- Every stored vector matches the collection's fixed dimension. -/
def DimOk (c : VectorCollection) : Prop :=
  ∀ u ∈ c.vectors, c.dimensions = some u.dim

/-- Well-formedness invariant of a collection. -/
def Wf (c : VectorCollection) : Prop := MapConsistent c ∧ DimOk c

/-- Collections reachable through the public construction and mutation
surface of `collection.rs`. -/
inductive Reachable : VectorCollection → Prop where
  | new : Reachable VectorCollection.new
  | with_capacity (n : ℕ) : Reachable (VectorCollection.with_capacity n)
  | insert (c : VectorCollection) (v : Vector) :
      Reachable c → Reachable (c.insert v).1
  | batch_insert (c : VectorCollection) (vs : List Vector) :
      Reachable c → Reachable (VectorCollection.batch_insert c vs).1
  | remove (c : VectorCollection) (id : String) :
      Reachable c → Reachable (c.remove id).1

/-- Modelled from the spec: `DistanceMetric::compute` is called by
`collection.rs` (`search`) and `vector_aligned.rs` (`batch_distance`) but its
definition is not under `src/`.  Per the spec (§4.2) it fails with
`InvalidDimension{expected: a.dim(), got: b.dim()}` on mismatched dimensions
and otherwise dispatches by variant over the logical regions of both vectors,
with the per-variant formulas of `distance.rs`. -/
def DistanceMetric.compute (m : DistanceMetric) (a b : Vector) :
    Except ZyphyrError ℚ :=
  if a.dim ≠ b.dim then .error (.invalidDimension a.dim b.dim)
  else
    match m with
    | .euclidean => .ok (euclidean_distance a.logical b.logical)
    | .cosine => .ok (cosine_distance a.logical b.logical)
    | .dotProduct => .ok (dot_product_distance a.logical b.logical)

/-- The per-vector pass of `search`: compute the metric for every stored
vector in order, stopping at the first error — the semantics of collecting an
iterator of `Result`s into `Result<Vec<_>>`. -/
def computeAll (query : Vector) (metric : DistanceMetric) :
    List Vector → Except ZyphyrError (List (String × ℚ))
  | [] => .ok []
  | v :: vs =>
    match DistanceMetric.compute metric query v with
    | .error e => .error e
    | .ok d =>
      match computeAll query metric vs with
      | .error e => .error e
      | .ok rest => .ok ((v.id, d) :: rest)

/-- `VectorCollection::search`: compute every distance, sort ascending by
value, keep the first `k`.  Rust's `sort_by` with the
`partial_cmp(..).unwrap_or(Equal)` comparator is a stable sort whose
comparator, on NaN-free exact rationals, is the total order `≤` on the value
component; a stable sort is determined by its comparator, so Mathlib's stable
`insertionSort` models it exactly. -/
def VectorCollection.search (c : VectorCollection) (query : Vector) (k : ℕ)
    (metric : DistanceMetric) : Except ZyphyrError (List (String × ℚ)) :=
  match computeAll query metric c.vectors with
  | .error e => .error e
  | .ok results =>
    .ok ((List.insertionSort (fun a b => a.2 ≤ b.2) results).take k)

instance instLeSndTotal : IsTotal (String × ℚ) (fun a b => a.2 ≤ b.2) :=
  ⟨fun a b => le_total a.2 b.2⟩

instance instLeSndTrans : IsTrans (String × ℚ) (fun a b => a.2 ≤ b.2) :=
  ⟨fun _ _ _ h1 h2 => le_trans h1 h2⟩

/-- Query vector of dimension 1 used by the search witness. -/
def cexQ : Vector := ⟨"q", [1, 0, 0, 0], 1, 4, false⟩

theorem sqrtQ_zero : sqrtQ 0 = 0 := by
  norm_num [sqrtQ]

theorem sqrtQ_one : sqrtQ 1 = 1 := by
  norm_num [sqrtQ]

theorem sqrtQ_nonneg (q : ℚ) : 0 ≤ sqrtQ q := by
  unfold sqrtQ
  positivity

/-- C1 counterexample: on `a = [1,2]`, `b = [3,4]` the implementation returns
`-11`, while the raw (non-negated) dot product demanded by the claim is `11`. -/
theorem C1_counterexample :
    DistanceMetric.calculate .dotProduct [1, 2] [3, 4] = .ok (-11)
      ∧ specRawDotProduct [1, 2] [3, 4] = 11 ∧ ((-11 : ℚ) ≠ 11) := by
  refine ⟨?_, ?_, by norm_num⟩
  · norm_num [DistanceMetric.calculate, dot_product_distance, dotp]
  · norm_num [specRawDotProduct]

/-- C1 (amended): for every pair of vectors of equal positive dimension, the
DotProduct metric returns the NEGATED dot product `-(Σ a_i·b_i)` of the
logical regions, i.e. the negation of the spec's raw dot product. -/
theorem C1_dotProduct_negated (a b : List ℚ) (hlen : a.length = b.length)
    (hne : a ≠ []) :
    DistanceMetric.calculate .dotProduct a b = .ok (-(specRawDotProduct a b)) := by
  simp [DistanceMetric.calculate, hlen, dot_product_distance, dotp,
    specRawDotProduct, hne]

theorem C1_dotProduct_negated_witness :
    DistanceMetric.calculate .dotProduct [1, 2] [3, 4]
      = .ok (-(specRawDotProduct [1, 2] [3, 4])) :=
  C1_dotProduct_negated [1, 2] [3, 4] rfl (by simp)

/-- C7: for equal-dimension inputs, the Cosine metric returns exactly `1`
whenever either input's Euclidean norm is zero (equivalently, its sum of
squares is zero), and returns `1` on orthogonal unit vectors. -/
theorem C7_cosine_zero_and_orthonormal (a b : List ℚ) (_hlen : a.length = b.length) :
    ((sumsq a = 0 ∨ sumsq b = 0) → cosine_distance a b = 1)
      ∧ (dotp a b = 0 → sumsq a = 1 → sumsq b = 1 → cosine_distance a b = 1) := by
  constructor
  · rintro (h | h) <;> simp [cosine_distance, h, sqrtQ_zero]
  · intro hd ha hb
    simp [cosine_distance, ha, hb, sqrtQ_one, hd]

theorem C7_witness :
    cosine_distance [0, 0] [1, 1] = 1 ∧ cosine_distance [1, 0] [0, 1] = 1 := by
  constructor
  · exact (C7_cosine_zero_and_orthonormal [0, 0] [1, 1] rfl).1
      (Or.inl (by norm_num [sumsq]))
  · exact (C7_cosine_zero_and_orthonormal [1, 0] [0, 1] rfl).2
      (by norm_num [dotp]) (by norm_num [sumsq]) (by norm_num [sumsq])

theorem take_scale_append (data : List ℚ) (dim : ℕ) (f : ℚ → ℚ) :
    ((data.take dim).map f ++ data.drop dim).take dim = (data.take dim).map f := by
  rw [List.take_append_eq_append_take]
  have hA : ((data.take dim).map f).length ≤ dim := by simp
  rw [List.take_of_length_le hA]
  rcases le_or_lt dim data.length with hle | hlt
  · have h1 : ((data.take dim).map f).length = dim := by
      simp [Nat.min_eq_left hle]
    simp [h1]
    omega
  · have hB : data.drop dim = [] := List.drop_eq_nil_of_le (le_of_lt hlt)
    simp [hB]

theorem drop_scale_append (data : List ℚ) (dim : ℕ) (f : ℚ → ℚ) :
    ((data.take dim).map f ++ data.drop dim).drop dim = data.drop dim := by
  rw [List.drop_append_eq_append_drop]
  have hA : ((data.take dim).map f).length ≤ dim := by simp
  rw [List.drop_eq_nil_of_le hA, List.nil_append]
  rcases le_or_lt dim data.length with hle | hlt
  · have h2 : dim - dim ⊓ data.length = 0 := by omega
    simp [h2]
  · have hB : data.drop dim = [] := List.drop_eq_nil_of_le (le_of_lt hlt)
    simp [hB]

theorem normalize_data_drop (v : Vector) :
    (Vector.normalize v).data.drop v.dim = v.data.drop v.dim := by
  unfold Vector.normalize
  by_cases h : v.is_normalized
  · simp [h]
  · by_cases hm : 0 < sqrtQ (sumsq (v.data.take v.dim))
    · simp only [h, Bool.false_eq_true, if_false, hm, if_true]
      exact drop_scale_append v.data v.dim _
    · simp [h, hm]

theorem normalize_dim (v : Vector) : (Vector.normalize v).dim = v.dim := by
  unfold Vector.normalize
  by_cases h : v.is_normalized
  · simp [h]
  · by_cases hm : 0 < sqrtQ (sumsq (v.data.take v.dim)) <;> simp [h, hm]

theorem normalize_flag (v : Vector) : (Vector.normalize v).is_normalized = true := by
  unfold Vector.normalize
  by_cases h : v.is_normalized
  · simp [h]
  · by_cases hm : 0 < sqrtQ (sumsq (v.data.take v.dim)) <;> simp [h, hm]

theorem normalize_of_flag (v : Vector) (h : v.is_normalized = true) :
    Vector.normalize v = v := by
  unfold Vector.normalize
  simp [h]

theorem normalize_logical_of_pos (v : Vector) (hn : v.is_normalized = false)
    (hm : 0 < sqrtQ (sumsq (v.data.take v.dim))) :
    (Vector.normalize v).logical
      = (v.data.take v.dim).map (fun x => x / sqrtQ (sumsq (v.data.take v.dim))) := by
  unfold Vector.logical
  rw [normalize_dim]
  unfold Vector.normalize
  simp only [hn, Bool.false_eq_true, if_false, hm, if_true]
  exact take_scale_append v.data v.dim _

/-- C5: a successfully constructed Vector (positive dimension, positive SIMD
width) has `padded_dim` a multiple of the width, `padded_dim ≥ dim`, every
buffer slot in `[dim, padded_dim)` equal to zero — and `normalize` never
writes at or beyond index `dim` of the buffer of any vector, so the padding
region stays zero for the vector's lifetime. -/
theorem C5_padding (w : ℕ) (id : String) (data : List ℚ) (v : Vector)
    (hw : 0 < w) (hd : 0 < data.length) (h : Vector.new w id data = .ok v) :
    v.padded_dim % w = 0 ∧ v.dim ≤ v.padded_dim
      ∧ (∀ i, v.dim ≤ i → i < v.padded_dim → v.data[i]? = some 0)
      ∧ (∀ u : Vector, (Vector.normalize u).data.drop u.dim = u.data.drop u.dim) := by
  have hne : ¬ data.length = 0 := Nat.pos_iff_ne_zero.mp hd
  unfold Vector.new at h
  simp only [hne, if_false, Except.ok.injEq] at h
  have hpad : data.length ≤ pad_dimension data.length w := by
    unfold pad_dimension
    have h1 := Nat.lt_div_mul_add (a := data.length + w - 1) hw
    omega
  subst h
  refine ⟨Nat.mul_mod_left _ _, hpad, ?_, fun u => normalize_data_drop u⟩
  intro i hi1 hi2
  simp only at hi1 hi2 ⊢
  unfold listResize
  rw [List.take_of_length_le hpad, List.getElem?_append_right hi1,
    List.getElem?_replicate]
  have hlt : i - data.length < pad_dimension data.length w - data.length := by
    omega
  simp [hlt]

theorem C5_padding_witness :
    ({ id := "x", data := [3, 0, 0, 0], dim := 1, padded_dim := 4,
       is_normalized := false } : Vector).padded_dim % 4 = 0
      ∧ ({ id := "x", data := [3, 0, 0, 0], dim := 1, padded_dim := 4,
           is_normalized := false } : Vector).dim
        ≤ ({ id := "x", data := [3, 0, 0, 0], dim := 1, padded_dim := 4,
             is_normalized := false } : Vector).padded_dim
      ∧ ({ id := "x", data := [3, 0, 0, 0], dim := 1, padded_dim := 4,
           is_normalized := false } : Vector).data[2]? = some 0 := by
  have h := C5_padding 4 "x" [(3 : ℚ)]
    { id := "x", data := [3, 0, 0, 0], dim := 1, padded_dim := 4,
      is_normalized := false }
    (by norm_num) (by norm_num) rfl
  exact ⟨h.1, h.2.1, h.2.2.1 2 (by norm_num) (by norm_num)⟩

theorem sumsq_nonneg (l : List ℚ) : 0 ≤ sumsq l := by
  unfold sumsq
  induction l with
  | nil => simp
  | cons x xs ih =>
    simp only [List.map_cons, List.sum_cons]
    nlinarith [mul_self_nonneg x]

theorem sumsq_map_div (l : List ℚ) (m : ℚ) :
    sumsq (l.map (fun x => x / m)) = sumsq l / (m * m) := by
  unfold sumsq
  induction l with
  | nil => simp
  | cons x xs ih =>
    simp only [List.map_cons, List.sum_cons] at ih ⊢
    rw [ih, div_mul_div_comm, div_add_div_same]

/-- C6: `normalize` is exactly idempotent (its flag short-circuits the second
call); on a logically all-zero vector it leaves the logical data unchanged
(the positive-magnitude guard is not taken, so no division happens); and on a
not-yet-normalized vector whose magnitude is exactly representable
(`sqrtQ` squares back to the sum of squares — the exact-arithmetic reading of
"within floating tolerance") and nonzero, one call makes the logical region's
Euclidean magnitude exactly `1` (stated via the sum of squares: magnitude 1
iff sum of squares 1). -/
theorem C6_normalize (v : Vector) :
    Vector.normalize (Vector.normalize v) = Vector.normalize v
      ∧ (sumsq (v.data.take v.dim) = 0
          → (Vector.normalize v).logical = v.logical)
      ∧ (v.is_normalized = false
          → sqrtQ (sumsq (v.data.take v.dim)) * sqrtQ (sumsq (v.data.take v.dim))
              = sumsq (v.data.take v.dim)
          → sumsq (v.data.take v.dim) ≠ 0
          → sumsq ((Vector.normalize v).logical) = 1) := by
  refine ⟨normalize_of_flag _ (normalize_flag v), ?_, ?_⟩
  · intro h0
    unfold Vector.logical Vector.normalize
    by_cases h : v.is_normalized
    · simp [h]
    · simp [h, h0, sqrtQ_zero]
  · intro hn hsq hne
    have hm0 : sqrtQ (sumsq (v.data.take v.dim)) ≠ 0 := by
      intro h
      rw [h, mul_zero] at hsq
      exact hne hsq.symm
    have hmpos : 0 < sqrtQ (sumsq (v.data.take v.dim)) :=
      lt_of_le_of_ne (sqrtQ_nonneg _) (Ne.symm hm0)
    rw [normalize_logical_of_pos v hn hmpos, sumsq_map_div, hsq]
    exact div_self hne

theorem C6_normalize_witness :
    sumsq ((Vector.normalize
        { id := "w", data := [3, 4], dim := 2, padded_dim := 2,
          is_normalized := false }).logical) = 1 := by
  have h25 : sumsq (([(3 : ℚ), 4] : List ℚ).take 2) = 25 := by
    norm_num [sumsq]
  have hnum : ((25 : ℚ)).num = 25 := by norm_num
  have hnumt : ((25 : ℚ)).num.toNat = 25 := by rw [hnum]; rfl
  have hden : ((25 : ℚ)).den = 1 := by norm_num
  have h5 : Nat.sqrt 25 = 5 := by
    have h55 : (25 : ℕ) = 5 * 5 := by norm_num
    rw [h55, Nat.sqrt_eq]
  have hsqrt : sqrtQ 25 = 5 := by
    rw [sqrtQ, hnumt, hden, h5, Nat.sqrt_one]
    norm_num
  exact (C6_normalize
      { id := "w", data := [3, 4], dim := 2, padded_dim := 2,
        is_normalized := false }).2.2 rfl
    (by simp only [h25, hsqrt]; norm_num)
    (by simp only [h25]; norm_num)

theorem hmLookup_hmRemove_self (m : List (String × ℕ)) (k : String) :
    hmLookup (hmRemove m k) k = none := by
  induction m with
  | nil => rfl
  | cons p ps ih =>
    by_cases h : p.1 = k <;> simp [hmRemove, h, hmLookup, ih]

theorem hmLookup_hmRemove_ne (m : List (String × ℕ)) (k k' : String)
    (h : k' ≠ k) : hmLookup (hmRemove m k) k' = hmLookup m k' := by
  induction m with
  | nil => rfl
  | cons p ps ih =>
    by_cases hp : p.1 = k
    · have hne : ¬ p.1 = k' := by
        rw [hp]
        exact fun hh => h hh.symm
      have h2 : ¬ k = k' := fun hh => h hh.symm
      simp [hmRemove, hmLookup, hp, hne, h2, ih]
    · simp [hmRemove, hmLookup, hp, ih]

theorem hmLookup_hmInsert_self (m : List (String × ℕ)) (k : String) (n : ℕ) :
    hmLookup (hmInsert m k n) k = some n := by
  simp [hmInsert, hmLookup]

theorem hmLookup_hmInsert_ne (m : List (String × ℕ)) (k k' : String) (n : ℕ)
    (h : k' ≠ k) : hmLookup (hmInsert m k n) k' = hmLookup m k' := by
  have h2 : ¬ k = k' := fun hh => h hh.symm
  simp [hmInsert, hmLookup, h2, hmLookup_hmRemove_ne m k k' h]

theorem mem_of_mem_hmRemove (m : List (String × ℕ)) (k : String)
    (p : String × ℕ) (h : p ∈ hmRemove m k) : p ∈ m ∧ p.1 ≠ k := by
  induction m with
  | nil => simp [hmRemove] at h
  | cons q ps ih =>
    by_cases hq : q.1 = k
    · rw [hmRemove, if_pos hq] at h
      obtain ⟨h1, h2⟩ := ih h
      exact ⟨List.mem_cons_of_mem _ h1, h2⟩
    · rw [hmRemove, if_neg hq] at h
      rcases List.mem_cons.mp h with rfl | h2
      · exact ⟨List.mem_cons_self _ _, hq⟩
      · obtain ⟨h3, h4⟩ := ih h2
        exact ⟨List.mem_cons_of_mem _ h3, h4⟩

theorem hmLookup_isSome_iff (m : List (String × ℕ)) (k : String) :
    (hmLookup m k).isSome ↔ k ∈ m.map Prod.fst := by
  induction m with
  | nil => simp [hmLookup]
  | cons p ps ih =>
    by_cases h : p.1 = k
    · simp [hmLookup, h]
    · have h2 : ¬ k = p.1 := fun hh => h hh.symm
      simp [hmLookup, h, h2, ih]

theorem hmRemove_sublist (m : List (String × ℕ)) (k : String) :
    (hmRemove m k).Sublist m := by
  induction m with
  | nil => simp [hmRemove]
  | cons q ps ih =>
    by_cases h : q.1 = k
    · rw [hmRemove, if_pos h]
      exact ih.cons _
    · rw [hmRemove, if_neg h]
      exact ih.cons₂ _

theorem keysNodup_hmRemove (m : List (String × ℕ)) (k : String)
    (h : KeysNodup m) : KeysNodup (hmRemove m k) :=
  List.Nodup.sublist ((hmRemove_sublist m k).map Prod.fst) h

theorem keysNodup_hmInsert (m : List (String × ℕ)) (k : String) (n : ℕ)
    (h : KeysNodup m) : KeysNodup (hmInsert m k n) := by
  unfold KeysNodup hmInsert
  rw [List.map_cons, List.nodup_cons]
  refine ⟨?_, keysNodup_hmRemove m k h⟩
  intro hmem
  have h1 : (hmLookup (hmRemove m k) k).isSome :=
    (hmLookup_isSome_iff _ _).mpr hmem
  rw [hmLookup_hmRemove_self] at h1
  simp at h1

theorem chunksAux_spec (size : ℕ) (hs : 0 < size) :
    ∀ fuel xs, xs.length ≤ fuel →
      (chunksAux size fuel xs).flatten = xs
        ∧ ∀ ch ∈ chunksAux size fuel xs, ch.length ≤ size := by
  intro fuel
  induction fuel with
  | zero =>
    intro xs hx
    have hnil : xs = [] := List.length_eq_zero.mp (Nat.le_zero.mp hx)
    subst hnil
    simp [chunksAux]
  | succ f ih =>
    intro xs hx
    match xs with
    | [] => simp [chunksAux]
    | x :: t =>
      have hlen : (List.drop size (x :: t)).length ≤ f := by
        rw [List.length_drop]
        simp only [List.length_cons] at hx ⊢
        omega
      obtain ⟨h1, h2⟩ := ih _ hlen
      refine ⟨?_, ?_⟩
      · rw [chunksAux, List.flatten_cons, h1, List.take_append_drop]
      · intro ch hch
        rw [chunksAux] at hch
        rcases List.mem_cons.mp hch with rfl | hch2
        · exact List.length_take_le size (x :: t)
        · exact h2 ch hch2

/-- C10: `chunks` is total exactly for positive sizes: `chunks 0` hits the
zero-chunk-size panic of `slice::chunks` on every collection (the empty one
included), while for every positive size it returns normally, with the
chunks concatenating back to the backing sequence and each chunk of length
at most `size`. -/
theorem C10_chunks (c : VectorCollection) :
    c.chunks 0 = none
      ∧ ∀ size, 0 < size →
          (c.chunks size).isSome = true
            ∧ (c.chunks size)
                = some (chunksAux size c.vectors.length c.vectors)
            ∧ (chunksAux size c.vectors.length c.vectors).flatten = c.vectors
            ∧ ∀ ch ∈ chunksAux size c.vectors.length c.vectors,
                ch.length ≤ size := by
  refine ⟨by simp [VectorCollection.chunks], ?_⟩
  intro size hs
  have hne : ¬ size = 0 := Nat.pos_iff_ne_zero.mp hs
  obtain ⟨h1, h2⟩ := chunksAux_spec size hs c.vectors.length c.vectors le_rfl
  exact ⟨by simp [VectorCollection.chunks, hne], by simp [VectorCollection.chunks, hne],
    h1, h2⟩

theorem C10_chunks_witness :
    VectorCollection.new.chunks 0 = none
      ∧ (VectorCollection.new.chunks 2).isSome = true :=
  ⟨(C10_chunks VectorCollection.new).1,
    ((C10_chunks VectorCollection.new).2 2 (by norm_num)).1⟩

theorem insertTail_dimensions (c : VectorCollection) (v : Vector) :
    (VectorCollection.insertTail c v).1.dimensions = c.dimensions := by
  unfold VectorCollection.insertTail
  by_cases h : (hmLookup c.id_to_index v.id).isSome <;> simp [h]

theorem insert_dimensions_of_some (c : VectorCollection) (v : Vector) (d : ℕ)
    (h : c.dimensions = some d) : (c.insert v).1.dimensions = some d := by
  unfold VectorCollection.insert
  rw [h]
  by_cases hd : v.dim ≠ d
  · simp [hd]
    exact h
  · simp only [hd, if_false]
    rw [insertTail_dimensions]
    exact h

theorem remove_dimensions (c : VectorCollection) (id : String) :
    (c.remove id).1.dimensions = c.dimensions := by
  unfold VectorCollection.remove
  cases h : hmLookup c.id_to_index id with
  | none => simp
  | some index =>
    by_cases hi : index < c.vectors.length - 1 <;> simp [hi]

theorem batch_insert_dimensions_of_some (d : ℕ) :
    ∀ (vs : List Vector) (c : VectorCollection), c.dimensions = some d →
      (VectorCollection.batch_insert c vs).1.dimensions = some d := by
  intro vs
  induction vs with
  | nil =>
    intro c h
    simpa [VectorCollection.batch_insert] using h
  | cons v t ih =>
    intro c h
    have hins := insert_dimensions_of_some c v d h
    unfold VectorCollection.batch_insert
    rcases hi : c.insert v with ⟨c', r⟩
    rw [hi] at hins
    cases r with
    | ok u => simpa using ih c' hins
    | error e => simpa using hins

/-- C3 (amended): once the collection's dimension is set it never changes for
the rest of the collection's lifetime: `insert` (whether it succeeds or
fails), `batch_insert` and `remove` all preserve it.  In particular removal
down to the empty collection does NOT reset it, so inserting a vector of a
different dimension after emptying fails with `InvalidDimension` (see the
counterexample). -/
theorem C3_dimension_sticky (c : VectorCollection) (d : ℕ)
    (h : c.dimensions = some d) :
    (∀ v, (c.insert v).1.dimensions = some d)
      ∧ (∀ vs, (VectorCollection.batch_insert c vs).1.dimensions = some d)
      ∧ (∀ id, (c.remove id).1.dimensions = some d) := by
  refine ⟨fun v => insert_dimensions_of_some c v d h,
    fun vs => batch_insert_dimensions_of_some d vs c h,
    fun id => ?_⟩
  rw [remove_dimensions]
  exact h

theorem C3_dimension_sticky_witness :
    ((⟨[], [], some 1⟩ : VectorCollection).remove "a").1.dimensions = some 1 :=
  (C3_dimension_sticky ⟨[], [], some 1⟩ 1 rfl).2.2 "a"

/-- C3 counterexample: insert a 1-dimensional vector, remove it (the
collection is empty again), then insert a 2-dimensional vector: the insert
FAILS with `InvalidDimension {expected: 1, got: 2}` — the dimension is not
re-established from the fresh vector, contrary to the claim's second part. -/
theorem C3_counterexample :
    (((VectorCollection.new.insert cexV1).1.remove "a").1).is_empty = true
      ∧ ((((VectorCollection.new.insert cexV1).1.remove "a").1).insert cexV2).2
          = .error (.invalidDimension 1 2) := by
  constructor <;> rfl

/-- C9 (amended): inserting a vector whose identifier is already present
fails and returns the collection completely unchanged (so `len()` and the
previously stored vector are untouched); the error is the duplicate-identity
error when the new vector's dimension matches the collection's established
dimension, and `InvalidDimension` when it does not (the dimension check runs
first). -/
theorem C9_duplicate_insert (c : VectorCollection) (v : Vector) (d : ℕ)
    (hd : c.dimensions = some d) (hc : c.contains v.id = true) :
    (v.dim = d → c.insert v = (c, .error (.other ("Duplicate ID: " ++ v.id))))
      ∧ (v.dim ≠ d → c.insert v = (c, .error (.invalidDimension d v.dim))) := by
  have hsome : (hmLookup c.id_to_index v.id).isSome = true := hc
  constructor
  · intro he
    unfold VectorCollection.insert
    rw [hd]
    simp only [he, ne_eq, not_true_eq_false, if_false]
    unfold VectorCollection.insertTail
    simp [hsome]
  · intro he
    unfold VectorCollection.insert
    rw [hd]
    simp [he]

theorem C9_duplicate_insert_witness :
    (⟨[cexV1], [("a", 0)], some 1⟩ : VectorCollection).insert cexV1
      = (⟨[cexV1], [("a", 0)], some 1⟩,
          .error (.other ("Duplicate ID: " ++ "a"))) :=
  (C9_duplicate_insert ⟨[cexV1], [("a", 0)], some 1⟩ cexV1 1 rfl rfl).1 rfl

/-- C9 counterexample: the collection holds "a" (dimension 1); inserting
another vector with identifier "a" but dimension 2 fails with
`InvalidDimension {expected: 1, got: 2}`, not with the duplicate-identity
error the claim demands. -/
theorem C9_counterexample :
    ((⟨[cexV1], [("a", 0)], some 1⟩ : VectorCollection).insert cexV1dup2).2
        = .error (.invalidDimension 1 2)
      ∧ (ZyphyrError.invalidDimension 1 2
          ≠ ZyphyrError.other ("Duplicate ID: " ++ "a")) := by
  refine ⟨rfl, ?_⟩
  simp

theorem mem_of_hmLookup_eq_some (m : List (String × ℕ)) (k : String) (n : ℕ)
    (h : hmLookup m k = some n) : (k, n) ∈ m := by
  induction m with
  | nil => simp [hmLookup] at h
  | cons p ps ih =>
    by_cases hp : p.1 = k
    · rw [hmLookup, if_pos hp] at h
      have hpn : p = (k, n) := by
        obtain ⟨a, b⟩ := p
        simp only at hp
        simp only [Option.some.injEq] at h
        simp [hp, h]
      rw [hpn]
      exact List.mem_cons_self _ _
    · rw [hmLookup, if_neg hp] at h
      exact List.mem_cons_of_mem _ (ih h)

theorem wf_new : Wf VectorCollection.new := by
  refine ⟨⟨?_, ?_, ?_⟩, ?_⟩ <;>
    simp [VectorCollection.new, KeysNodup, hmLookup, DimOk]

theorem wf_with_capacity (n : ℕ) : Wf (VectorCollection.with_capacity n) := by
  refine ⟨⟨?_, ?_, ?_⟩, ?_⟩ <;>
    simp [VectorCollection.with_capacity, KeysNodup, hmLookup, DimOk]

theorem mapConsistent_push (vecs : List Vector) (map : List (String × ℕ))
    (dims : Option ℕ) (v : Vector)
    (hfwd : ∀ p ∈ map, ∃ u, vecs[p.2]? = some u ∧ u.id = p.1)
    (hrev : ∀ i u, vecs[i]? = some u → hmLookup map u.id = some i)
    (hnod : KeysNodup map)
    (hnew : hmLookup map v.id = none) :
    MapConsistent ⟨vecs ++ [v], hmInsert map v.id vecs.length, dims⟩ := by
  refine ⟨?_, ?_, keysNodup_hmInsert _ _ _ hnod⟩
  · intro p hp
    rcases List.mem_cons.mp hp with rfl | hp2
    · exact ⟨v, List.getElem?_concat_length vecs v, rfl⟩
    · obtain ⟨hpm, hpne⟩ := mem_of_mem_hmRemove _ _ _ hp2
      obtain ⟨u, hu, huid⟩ := hfwd p hpm
      have hb : p.2 < vecs.length := (List.getElem?_eq_some.mp hu).1
      exact ⟨u, by rw [List.getElem?_append_left hb]; exact hu, huid⟩
  · intro i u hu
    have hb : i < vecs.length + 1 := by
      have h1 := (List.getElem?_eq_some.mp hu).1
      simpa using h1
    rcases Nat.lt_or_ge i vecs.length with hi | hi
    · rw [List.getElem?_append_left hi] at hu
      have hlk := hrev i u hu
      have hne : u.id ≠ v.id := by
        intro he
        rw [he, hnew] at hlk
        cases hlk
      rw [hmLookup_hmInsert_ne _ _ _ _ hne]
      exact hlk
    · have hieq : i = vecs.length := by omega
      subst hieq
      rw [List.getElem?_concat_length] at hu
      have huv : u = v := (Option.some.inj hu).symm
      subst huv
      exact hmLookup_hmInsert_self map u.id vecs.length

theorem wf_insertTail (c : VectorCollection) (v : Vector)
    (hfwd : ∀ p ∈ c.id_to_index, ∃ u, c.vectors[p.2]? = some u ∧ u.id = p.1)
    (hrev : ∀ i u, c.vectors[i]? = some u → hmLookup c.id_to_index u.id = some i)
    (hnod : KeysNodup c.id_to_index)
    (hdim : ∀ u ∈ c.vectors ++ [v], c.dimensions = some u.dim) :
    Wf (VectorCollection.insertTail c v).1 := by
  unfold VectorCollection.insertTail
  by_cases hlk : (hmLookup c.id_to_index v.id).isSome
  · rw [if_pos hlk]
    exact ⟨⟨hfwd, hrev, hnod⟩,
      fun u hu => hdim u (List.mem_append_left _ hu)⟩
  · rw [if_neg hlk]
    refine ⟨?_, ?_⟩
    · exact mapConsistent_push c.vectors c.id_to_index c.dimensions v
        hfwd hrev hnod (Option.not_isSome_iff_eq_none.mp hlk)
    · intro u hu
      exact hdim u hu

theorem wf_insert (c : VectorCollection) (v : Vector) (hw : Wf c) :
    Wf (c.insert v).1 := by
  obtain ⟨⟨hfwd, hrev, hnod⟩, hdim⟩ := hw
  unfold VectorCollection.insert
  cases hd : c.dimensions with
  | some d =>
    dsimp only
    by_cases hvd : v.dim ≠ d
    · rw [if_pos hvd]
      exact ⟨⟨hfwd, hrev, hnod⟩, hdim⟩
    · rw [if_neg hvd]
      refine wf_insertTail c v hfwd hrev hnod ?_
      intro u hu
      rcases List.mem_append.mp hu with h1 | h2
      · exact hdim u h1
      · have huv : u = v := by simpa using h2
        subst huv
        rw [hd, not_not.mp hvd]
  | none =>
    dsimp only
    have hvecs : c.vectors = [] := by
      cases hv : c.vectors with
      | nil => rfl
      | cons a t =>
        have h1 := hdim a (by rw [hv]; exact List.mem_cons_self _ _)
        rw [hd] at h1
        cases h1
    refine wf_insertTail { c with dimensions := some v.dim } v hfwd hrev hnod ?_
    intro u hu
    rcases List.mem_append.mp hu with h1 | h2
    · rw [hvecs] at h1
      cases h1
    · have huv : u = v := by simpa using h2
      subst huv
      rfl

theorem wf_batch_insert : ∀ (vs : List Vector) (c : VectorCollection), Wf c →
    Wf (VectorCollection.batch_insert c vs).1 := by
  intro vs
  induction vs with
  | nil =>
    intro c h
    simpa [VectorCollection.batch_insert] using h
  | cons v t ih =>
    intro c h
    unfold VectorCollection.batch_insert
    rcases hi : c.insert v with ⟨c', r⟩
    have hc' : Wf c' := by
      have h2 := wf_insert c v h
      rw [hi] at h2
      exact h2
    cases r with
    | ok u => simpa using ih c' hc'
    | error e => simpa using hc'

theorem listSwap_length (l : List Vector) (i j : ℕ) :
    (listSwap l i j).length = l.length := by
  unfold listSwap
  cases h1 : l[i]? <;> cases h2 : l[j]? <;> simp

theorem listSwap_get_left (l : List Vector) (i j : ℕ) (a b : Vector)
    (h1 : l[i]? = some a) (h2 : l[j]? = some b) (hij : i ≠ j) :
    (listSwap l i j)[i]? = some b := by
  unfold listSwap
  simp only [h1, h2]
  have hi : i < l.length := (List.getElem?_eq_some.mp h1).1
  rw [List.getElem?_set_ne (Ne.symm hij), List.getElem?_set_self hi]

theorem listSwap_get_right (l : List Vector) (i j : ℕ) (a b : Vector)
    (h1 : l[i]? = some a) (h2 : l[j]? = some b) :
    (listSwap l i j)[j]? = some a := by
  unfold listSwap
  simp only [h1, h2]
  have hj : j < l.length := (List.getElem?_eq_some.mp h2).1
  rw [List.getElem?_set_self (by rw [List.length_set]; exact hj)]

theorem listSwap_get_other (l : List Vector) (i j k : ℕ)
    (hki : k ≠ i) (hkj : k ≠ j) : (listSwap l i j)[k]? = l[k]? := by
  unfold listSwap
  cases h1 : l[i]? with
  | none => rfl
  | some a =>
    cases h2 : l[j]? with
    | none => rfl
    | some b =>
      rw [List.getElem?_set_ne (Ne.symm hkj), List.getElem?_set_ne (Ne.symm hki)]

theorem mem_of_mem_listSwap (l : List Vector) (i j : ℕ) (u : Vector)
    (h : u ∈ listSwap l i j) : u ∈ l := by
  unfold listSwap at h
  split at h
  case _ a b h1 h2 =>
    rcases List.mem_or_eq_of_mem_set h with h3 | h3
    · rcases List.mem_or_eq_of_mem_set h3 with h4 | h4
      · exact h4
      · subst h4
        exact List.getElem?_mem h2
    · subst h3
      exact List.getElem?_mem h1
  case _ => exact h

theorem getElem?_dropLast (l : List Vector) (i : ℕ) (h : i < l.length - 1) :
    l.dropLast[i]? = l[i]? := by
  rw [List.dropLast_eq_take, List.getElem?_take, if_pos h]

theorem remove_absent (c : VectorCollection) (id : String)
    (h : hmLookup c.id_to_index id = none) : c.remove id = (c, none) := by
  unfold VectorCollection.remove
  rw [h]

theorem remove_present_spec (c : VectorCollection) (id : String) (index : ℕ)
    (hw : Wf c) (hlk : hmLookup c.id_to_index id = some index) :
    Wf (c.remove id).1
      ∧ (c.remove id).2 = c.get id
      ∧ (c.remove id).1.len + 1 = c.len
      ∧ (c.remove id).1.contains id = false
      ∧ (∀ id', id' ≠ id → (c.remove id).1.get id' = c.get id') := by
  obtain ⟨⟨hfwd, hrev, hnod⟩, hdim⟩ := hw
  obtain ⟨target, htv, hti⟩ :=
    hfwd (id, index) (mem_of_hmLookup_eq_some _ _ _ hlk)
  dsimp only at htv hti
  have hidx : index < c.vectors.length := (List.getElem?_eq_some.mp htv).1
  have hget : c.get id = some target := by
    unfold VectorCollection.get
    rw [hlk]
    simpa using htv
  unfold VectorCollection.remove
  rw [hlk]
  dsimp only
  by_cases hcase : index < c.vectors.length - 1
  · rw [if_pos hcase]
    obtain ⟨b, hbe⟩ : ∃ b, c.vectors[c.vectors.length - 1]? = some b := by
      cases hb2 : c.vectors[c.vectors.length - 1]? with
      | some b => exact ⟨b, rfl⟩
      | none =>
        exfalso
        have h1 := List.getElem?_eq_none_iff.mp hb2
        omega
    have hij : index ≠ c.vectors.length - 1 := by omega
    have hvsl : (listSwap c.vectors index (c.vectors.length - 1)).length
        = c.vectors.length := listSwap_length _ _ _
    have hvsi : (listSwap c.vectors index (c.vectors.length - 1))[index]?
        = some b := listSwap_get_left _ _ _ _ _ htv hbe hij
    have hvsj : (listSwap c.vectors index
          (c.vectors.length - 1))[c.vectors.length - 1]? = some target :=
      listSwap_get_right _ _ _ _ _ htv hbe
    have hvso : ∀ k, k ≠ index → k ≠ c.vectors.length - 1 →
        (listSwap c.vectors index (c.vectors.length - 1))[k]?
          = c.vectors[k]? :=
      fun k hk1 hk2 => listSwap_get_other _ _ _ _ hk1 hk2
    have hblk : hmLookup c.id_to_index b.id = some (c.vectors.length - 1) :=
      hrev _ b hbe
    have hbne : b.id ≠ id := by
      intro he
      rw [he, hlk] at hblk
      exact hij (Option.some.inj hblk)
    rw [hvsi]
    simp only [Option.map_some', Option.getD_some]
    refine ⟨⟨⟨?_, ?_, ?_⟩, ?_⟩, ?_, ?_, ?_, ?_⟩
    · intro p hp
      unfold hmInsert at hp
      rcases List.mem_cons.mp hp with rfl | hp2
      · refine ⟨b, ?_, rfl⟩
        rw [getElem?_dropLast _ _ (by rw [hvsl]; omega)]
        exact hvsi
      · obtain ⟨hp3, hpb⟩ := mem_of_mem_hmRemove _ _ _ hp2
        obtain ⟨hp4, hpid⟩ := mem_of_mem_hmRemove _ _ _ hp3
        obtain ⟨u, hu, huid⟩ := hfwd p hp4
        have hbnd : p.2 < c.vectors.length := (List.getElem?_eq_some.mp hu).1
        have hne1 : p.2 ≠ index := by
          intro he
          rw [he, htv] at hu
          exact hpid (by rw [← huid, ← Option.some.inj hu, hti])
        have hne2 : p.2 ≠ c.vectors.length - 1 := by
          intro he
          rw [he, hbe] at hu
          exact hpb (by rw [← huid, ← Option.some.inj hu])
        refine ⟨u, ?_, huid⟩
        rw [getElem?_dropLast _ _ (by rw [hvsl]; omega), hvso p.2 hne1 hne2]
        exact hu
    · intro i u hu
      have hib : i < c.vectors.length - 1 := by
        have h1 := (List.getElem?_eq_some.mp hu).1
        rw [List.length_dropLast, hvsl] at h1
        exact h1
      rw [getElem?_dropLast _ _ (by rw [hvsl]; exact hib)] at hu
      by_cases hii : i = index
      · subst hii
        rw [hvsi] at hu
        have hub : u = b := (Option.some.inj hu).symm
        subst hub
        exact hmLookup_hmInsert_self _ _ _
      · rw [hvso i hii (by omega)] at hu
        have hulk := hrev i u hu
        have hune1 : u.id ≠ id := by
          intro he
          rw [he, hlk] at hulk
          exact hii (Option.some.inj hulk).symm
        have hune2 : u.id ≠ b.id := by
          intro he
          rw [he, hblk] at hulk
          have h2 := Option.some.inj hulk
          omega
        rw [hmLookup_hmInsert_ne _ _ _ _ hune2,
          hmLookup_hmRemove_ne _ _ _ hune1]
        exact hulk
    · exact keysNodup_hmInsert _ _ _ (keysNodup_hmRemove _ _ hnod)
    · intro u hu
      have h1 : u ∈ listSwap c.vectors index (c.vectors.length - 1) :=
        (List.dropLast_sublist _).mem hu
      exact hdim u (mem_of_mem_listSwap _ _ _ _ h1)
    · rw [hget, List.getLast?_eq_getElem?, hvsl]
      exact hvsj
    · unfold VectorCollection.len
      dsimp only
      rw [List.length_dropLast, hvsl]
      omega
    · unfold VectorCollection.contains
      dsimp only
      rw [hmLookup_hmInsert_ne _ _ _ _ (Ne.symm hbne), hmLookup_hmRemove_self]
      rfl
    · intro id' hne'
      unfold VectorCollection.get
      dsimp only
      by_cases hidb : id' = b.id
      · subst hidb
        rw [hmLookup_hmInsert_self, hblk]
        simp only [Option.some_bind]
        rw [getElem?_dropLast _ _ (by rw [hvsl]; omega), hvsi, hbe]
      · rw [hmLookup_hmInsert_ne _ _ _ _ hidb,
          hmLookup_hmRemove_ne _ _ _ hne']
        cases hk : hmLookup c.id_to_index id' with
        | none => rfl
        | some k =>
          obtain ⟨u, hu, huid⟩ :=
            hfwd (id', k) (mem_of_hmLookup_eq_some _ _ _ hk)
          dsimp only at hu huid
          have hkb : k < c.vectors.length := (List.getElem?_eq_some.mp hu).1
          have hk1 : k ≠ index := by
            intro he
            rw [he, htv] at hu
            exact hne' (by rw [← huid, ← Option.some.inj hu, hti])
          have hk2 : k ≠ c.vectors.length - 1 := by
            intro he
            rw [he, hbe] at hu
            exact hidb (by rw [← huid, ← Option.some.inj hu])
          simp only [Option.some_bind]
          rw [getElem?_dropLast _ _ (by rw [hvsl]; omega), hvso k hk1 hk2]
  · rw [if_neg hcase]
    have hieq : index = c.vectors.length - 1 := by omega
    refine ⟨⟨⟨?_, ?_, ?_⟩, ?_⟩, ?_, ?_, ?_, ?_⟩
    · intro p hp
      obtain ⟨hp2, hpid⟩ := mem_of_mem_hmRemove _ _ _ hp
      obtain ⟨u, hu, huid⟩ := hfwd p hp2
      have hbnd : p.2 < c.vectors.length := (List.getElem?_eq_some.mp hu).1
      have hne1 : p.2 ≠ index := by
        intro he
        rw [he, htv] at hu
        exact hpid (by rw [← huid, ← Option.some.inj hu, hti])
      refine ⟨u, ?_, huid⟩
      rw [getElem?_dropLast _ _ (by omega)]
      exact hu
    · intro i u hu
      have hib : i < c.vectors.length - 1 := by
        have h1 := (List.getElem?_eq_some.mp hu).1
        rw [List.length_dropLast] at h1
        exact h1
      rw [getElem?_dropLast _ _ hib] at hu
      have hulk := hrev i u hu
      have hune : u.id ≠ id := by
        intro he
        rw [he, hlk] at hulk
        have h2 := Option.some.inj hulk
        omega
      rw [hmLookup_hmRemove_ne _ _ _ hune]
      exact hulk
    · exact keysNodup_hmRemove _ _ hnod
    · intro u hu
      exact hdim u ((List.dropLast_sublist _).mem hu)
    · rw [hget, List.getLast?_eq_getElem?, ← hieq]
      exact htv
    · unfold VectorCollection.len
      dsimp only
      rw [List.length_dropLast]
      omega
    · unfold VectorCollection.contains
      dsimp only
      rw [hmLookup_hmRemove_self]
      rfl
    · intro id' hne'
      unfold VectorCollection.get
      dsimp only
      rw [hmLookup_hmRemove_ne _ _ _ hne']
      cases hk : hmLookup c.id_to_index id' with
      | none => rfl
      | some k =>
        obtain ⟨u, hu, huid⟩ :=
          hfwd (id', k) (mem_of_hmLookup_eq_some _ _ _ hk)
        dsimp only at hu huid
        have hkb : k < c.vectors.length := (List.getElem?_eq_some.mp hu).1
        have hk1 : k ≠ index := by
          intro he
          rw [he, htv] at hu
          exact hne' (by rw [← huid, ← Option.some.inj hu, hti])
        simp only [Option.some_bind]
        rw [getElem?_dropLast _ _ (by omega)]

theorem wf_remove (c : VectorCollection) (id : String) (hw : Wf c) :
    Wf (c.remove id).1 := by
  cases h : hmLookup c.id_to_index id with
  | none =>
    rw [remove_absent c id h]
    exact hw
  | some index => exact (remove_present_spec c id index hw h).1

/-- C8: on a well-formed collection, `remove` of an absent identifier returns
nothing and changes nothing; `remove` of a present identifier returns exactly
the vector `get` would return for it, decreases `len` by exactly one, makes
`contains` false, and leaves every other identifier retrievable via `get`
with the same vector as before. -/
theorem C8_remove (c : VectorCollection) (id : String) (hw : Wf c) :
    (c.contains id = false → c.remove id = (c, none))
      ∧ (c.contains id = true →
          (c.remove id).2 = c.get id
            ∧ (c.remove id).1.len + 1 = c.len
            ∧ (c.remove id).1.contains id = false
            ∧ (∀ id', id' ≠ id → (c.remove id).1.get id' = c.get id')) := by
  constructor
  · intro h
    have hnone : hmLookup c.id_to_index id = none := by
      cases hh : hmLookup c.id_to_index id with
      | none => rfl
      | some k =>
        unfold VectorCollection.contains at h
        rw [hh] at h
        simp at h
    exact remove_absent c id hnone
  · intro h
    obtain ⟨k, hk⟩ : ∃ k, hmLookup c.id_to_index id = some k := by
      unfold VectorCollection.contains at h
      exact Option.isSome_iff_exists.mp h
    obtain ⟨-, h1, h2, h3, h4⟩ := remove_present_spec c id k ⟨⟨hw.1.1, hw.1.2.1, hw.1.2.2⟩, hw.2⟩ hk
    exact ⟨h1, h2, h3, h4⟩

theorem C8_remove_witness :
    ((VectorCollection.new.insert cexV1).1.remove "zz"
        = ((VectorCollection.new.insert cexV1).1, none))
      ∧ (((VectorCollection.new.insert cexV1).1.remove "a").2
          = (VectorCollection.new.insert cexV1).1.get "a")
      ∧ (((VectorCollection.new.insert cexV1).1.remove "a").1.contains "a"
          = false) := by
  have hwf : Wf (VectorCollection.new.insert cexV1).1 :=
    wf_insert VectorCollection.new cexV1 wf_new
  have h1 := C8_remove (VectorCollection.new.insert cexV1).1 "zz" hwf
  have h2 := C8_remove (VectorCollection.new.insert cexV1).1 "a" hwf
  exact ⟨h1.1 rfl, (h2.2 rfl).1, (h2.2 rfl).2.2.1⟩

theorem reachable_wf (c : VectorCollection) (h : Reachable c) : Wf c := by
  induction h with
  | new => exact wf_new
  | with_capacity n => exact wf_with_capacity n
  | insert c v _ ih => exact wf_insert c v ih
  | batch_insert c vs _ ih => exact wf_batch_insert vs c ih
  | remove c id _ ih => exact wf_remove c id ih

theorem nodup_ids_of_consistent (c : VectorCollection)
    (hrev : ∀ i u, c.vectors[i]? = some u →
      hmLookup c.id_to_index u.id = some i) :
    (c.vectors.map Vector.id).Nodup := by
  rw [List.nodup_iff_injective_get]
  intro i j hij
  have h1 : (c.vectors.map Vector.id)[(i : ℕ)]?
      = some ((c.vectors.map Vector.id).get i) := by
    rw [List.getElem?_eq_some]
    exact ⟨i.2, rfl⟩
  have h2 : (c.vectors.map Vector.id)[(j : ℕ)]?
      = some ((c.vectors.map Vector.id).get j) := by
    rw [List.getElem?_eq_some]
    exact ⟨j.2, rfl⟩
  rw [hij] at h1
  rw [List.getElem?_map] at h1 h2
  obtain ⟨u, hu, hui⟩ := Option.map_eq_some'.mp h1
  obtain ⟨w, hw, hwi⟩ := Option.map_eq_some'.mp h2
  have e1 := hrev _ u hu
  have e2 := hrev _ w hw
  have hids : u.id = w.id := by rw [hui, hwi]
  rw [hids, e2] at e1
  exact Fin.ext (Option.some.inj e1).symm

/-- C4: every collection reachable by any sequence of `new`, `with_capacity`,
`insert`, `batch_insert` and `remove` has pairwise-distinct identifiers, its
id→slot map sends every stored vector's id to its current slot, and every map
entry points at an in-range slot holding a vector with exactly that id (no
stale or missing entries). -/
theorem C4_invariants (c : VectorCollection) (h : Reachable c) :
    (c.vectors.map Vector.id).Nodup
      ∧ (∀ i u, c.vectors[i]? = some u →
          hmLookup c.id_to_index u.id = some i)
      ∧ (∀ p ∈ c.id_to_index,
          p.2 < c.vectors.length
            ∧ ∃ u, c.vectors[p.2]? = some u ∧ u.id = p.1) := by
  obtain ⟨⟨hfwd, hrev, hnod⟩, -⟩ := reachable_wf c h
  refine ⟨nodup_ids_of_consistent c hrev, hrev, ?_⟩
  intro p hp
  obtain ⟨u, hu, huid⟩ := hfwd p hp
  exact ⟨(List.getElem?_eq_some.mp hu).1, u, hu, huid⟩

theorem C4_invariants_witness :
    ((((VectorCollection.new.insert cexV1).1.insert cexV3).1.vectors.map
        Vector.id).Nodup) :=
  (C4_invariants _ (Reachable.insert _ cexV3
    (Reachable.insert _ cexV1 Reachable.new))).1

theorem computeAll_ok_ids (query : Vector) (metric : DistanceMetric) :
    ∀ (l : List Vector) (r : List (String × ℚ)),
      computeAll query metric l = .ok r → r.map Prod.fst = l.map Vector.id := by
  intro l
  induction l with
  | nil =>
    intro r h
    cases h
    rfl
  | cons v vs ih =>
    intro r h
    unfold computeAll at h
    cases hc : DistanceMetric.compute metric query v with
    | error e =>
      rw [hc] at h
      cases h
    | ok d =>
      rw [hc] at h
      cases hr : computeAll query metric vs with
      | error e =>
        rw [hr] at h
        cases h
      | ok rest =>
        rw [hr] at h
        cases h
        simp [ih rest hr]

theorem computeAll_error_first (query : Vector) (metric : DistanceMetric) :
    ∀ (l₁ : List Vector) (v : Vector) (l₂ : List Vector) (e : ZyphyrError),
      (∀ u ∈ l₁, ∃ d, DistanceMetric.compute metric query u = .ok d) →
      DistanceMetric.compute metric query v = .error e →
      computeAll query metric (l₁ ++ v :: l₂) = .error e := by
  intro l₁
  induction l₁ with
  | nil =>
    intro v l₂ e _ hv
    rw [List.nil_append]
    unfold computeAll
    rw [hv]
  | cons u t ih =>
    intro v l₂ e hall hv
    obtain ⟨d, hd⟩ := hall u (List.mem_cons_self _ _)
    have hrest := ih v l₂ e (fun w hw => hall w (List.mem_cons_of_mem _ hw)) hv
    show computeAll query metric (u :: (t ++ v :: l₂)) = .error e
    unfold computeAll
    rw [hd, hrest]

theorem computeAll_ok_of_all (query : Vector) (metric : DistanceMetric) :
    ∀ l : List Vector,
      (∀ u ∈ l, ∃ d, DistanceMetric.compute metric query u = .ok d) →
      ∃ r, computeAll query metric l = .ok r := by
  intro l
  induction l with
  | nil =>
    intro h
    exact ⟨[], rfl⟩
  | cons u t ih =>
    intro hall
    obtain ⟨d, hd⟩ := hall u (List.mem_cons_self _ _)
    obtain ⟨r, hr⟩ := ih (fun w hw => hall w (List.mem_cons_of_mem _ hw))
    refine ⟨(u.id, d) :: r, ?_⟩
    unfold computeAll
    rw [hd, hr]

/-- C2: `search` computes the metric once per stored vector, propagating the
first computation error; when every computation succeeds it returns a list
sorted ascending by the computed value of length `min k len` (hence at most
`k`), and when `k ≥ len` the returned identifiers are exactly the stored
identifiers up to permutation — one result per stored vector. -/
theorem C2_search (c : VectorCollection) (query : Vector) (k : ℕ)
    (metric : DistanceMetric) :
    (∀ r, c.search query k metric = .ok r →
        r.Pairwise (fun p q => p.2 ≤ q.2)
          ∧ r.length = min k c.len
          ∧ r.length ≤ k
          ∧ (c.len ≤ k → (r.map Prod.fst).Perm (c.vectors.map Vector.id)))
      ∧ ((∀ u ∈ c.vectors, ∃ d, DistanceMetric.compute metric query u = .ok d)
          → ∃ r, c.search query k metric = .ok r)
      ∧ (∀ (l₁ : List Vector) (v : Vector) (l₂ : List Vector)
            (e : ZyphyrError),
          c.vectors = l₁ ++ v :: l₂ →
          (∀ u ∈ l₁, ∃ d, DistanceMetric.compute metric query u = .ok d) →
          DistanceMetric.compute metric query v = .error e →
          c.search query k metric = .error e) := by
  refine ⟨?_, ?_, ?_⟩
  · intro r h
    unfold VectorCollection.search at h
    cases hres : computeAll query metric c.vectors with
    | error e =>
      rw [hres] at h
      cases h
    | ok results =>
      rw [hres] at h
      cases h
      have hperm := List.perm_insertionSort
        (fun a b : String × ℚ => a.2 ≤ b.2) results
      have hlen : results.length = c.len := by
        have hids := computeAll_ok_ids query metric c.vectors results hres
        have h1 : (results.map Prod.fst).length
            = (c.vectors.map Vector.id).length := by rw [hids]
        simpa [VectorCollection.len] using h1
      have hslen : (List.insertionSort (fun a b : String × ℚ => a.2 ≤ b.2)
          results).length = c.len := by
        rw [hperm.length_eq, hlen]
      refine ⟨?_, ?_, ?_, ?_⟩
      · exact List.Pairwise.sublist (List.take_sublist _ _)
          (List.sorted_insertionSort (fun a b : String × ℚ => a.2 ≤ b.2)
            results)
      · rw [List.length_take, hslen]
      · rw [List.length_take, hslen]
        exact min_le_left _ _
      · intro hk
        rw [List.take_of_length_le (by rw [hslen]; exact hk)]
        have h2 := hperm.map Prod.fst
        rw [computeAll_ok_ids query metric c.vectors results hres] at h2
        exact h2
  · intro hall
    obtain ⟨r, hr⟩ := computeAll_ok_of_all query metric c.vectors hall
    refine ⟨(List.insertionSort (fun a b : String × ℚ => a.2 ≤ b.2) r).take k,
      ?_⟩
    unfold VectorCollection.search
    rw [hr]
  · intro l₁ v l₂ e hsplit hall hv
    unfold VectorCollection.search
    rw [hsplit, computeAll_error_first query metric l₁ v l₂ e hall hv]

theorem C2_search_witness :
    ((((VectorCollection.new.insert cexV1).1.insert cexV3).1.search cexQ 5
        DistanceMetric.dotProduct) = .ok [("b", -2), ("a", -1)])
      ∧ ([("b", (-2 : ℚ)), ("a", -1)] : List (String × ℚ)).Pairwise
          (fun p q => p.2 ≤ q.2)
      ∧ (([("b", (-2 : ℚ)), ("a", -1)] : List (String × ℚ)).length
          = min 5 (((VectorCollection.new.insert cexV1).1.insert cexV3).1.len)) := by
  have hcw : ((VectorCollection.new.insert cexV1).1.insert cexV3).1
      = ⟨[cexV1, cexV3], [("b", 1), ("a", 0)], some 1⟩ := rfl
  have hs : (((VectorCollection.new.insert cexV1).1.insert cexV3).1.search
      cexQ 5 DistanceMetric.dotProduct) = .ok [("b", -2), ("a", -1)] := by
    rw [hcw]
    norm_num [VectorCollection.search, computeAll, DistanceMetric.compute,
      dot_product_distance, dotp, Vector.logical, cexV1, cexV3, cexQ,
      List.insertionSort, List.orderedInsert]
  have h := (C2_search ((VectorCollection.new.insert cexV1).1.insert
    cexV3).1 cexQ 5 DistanceMetric.dotProduct).1 _ hs
  exact ⟨hs, h.1, h.2.1⟩

end Zyphyr
